import Mathlib

/-!
# Calendar event store (`internal/storage/storage.go`)

A shallow embedding of `storage.Manager` and its four operations
`CreateEvent`, `UpdateEvent`, `DeleteEvent` and `GetEventsForRange`, together
with the part of Go's `time.Time` the store relies on (`Equal`, `Before`,
`After`, `AddDate`) and the query handlers of `internal/service/handlers.go`
from the point where the request has been parsed.

* A Go `map[int][]Event` is a function `Int → Option (List Event)`; `none` is
  an absent key, and reading an absent key yields the nil (empty) slice.
* User ids are Go `int`s that are only compared, never computed with, so they
  are unbounded `Int`s here.
* A Go `error` is an `Option String`: `none` is `nil`, `some msg` is
  `errors.New(msg)`.
* The `sync.RWMutex` is not part of the sequential model: every operation is a
  pure function from the store before the call to the store after it.
-/

namespace Storage

/-! ## `time.Time` -/

/-- A Go `time.Time`: the wall-clock instant as seconds and nanoseconds, the
optional monotonic clock reading, and the location the instant is shown in. -/
structure Time where
  sec : Int
  nsec : Nat
  mono : Option Int
  loc : Nat
  deriving DecidableEq, Repr

namespace Time

/-- Go `t.Equal(u)`: when both values carry a monotonic reading those are
compared, otherwise the wall-clock instants; the location plays no part. -/
def Equal (t u : Time) : Bool :=
  match t.mono, u.mono with
  | some a, some b => decide (a = b)
  | _, _ => decide (t.sec = u.sec) && decide (t.nsec = u.nsec)

/-- Go `t.Before(u)`. -/
def Before (t u : Time) : Bool :=
  match t.mono, u.mono with
  | some a, some b => decide (a < b)
  | _, _ => decide (t.sec < u.sec) || (decide (t.sec = u.sec) && decide (t.nsec < u.nsec))

/-- Go `t.After(u)`. -/
def After (t u : Time) : Bool :=
  match t.mono, u.mono with
  | some a, some b => decide (a > b)
  | _, _ => decide (t.sec > u.sec) || (decide (t.sec = u.sec) && decide (t.nsec > u.nsec))

/-- The order `t <= u` on dates as the specification words it: `t` is before
`u` or the two are the same instant. -/
def le (t u : Time) : Bool := t.Before u || t.Equal u

end Time

/-! ## The data model -/

/-- The Go struct `Event`. -/
structure Event where
  UserID : Int
  Date : Time
  Title : String
  Text : String
  deriving DecidableEq, Repr

/-- The Go struct `Manager`, without its lock: the map from user ids to their
events. -/
structure Manager where
  events : Int → Option (List Event)

/-- The error value `errors.New("event not found")`. -/
def errNotFound : Option String := some "event not found"

namespace Manager

/-- Go `c.events[userID]` read as a value: the stored slice, or the nil slice
when the key is absent. -/
def get (c : Manager) (userID : Int) : List Event :=
  match c.events userID with
  | some xs => xs
  | none => []

/-- Go `c.events[userID] = xs`: the map assignment. -/
def put (c : Manager) (userID : Int) (xs : List Event) : Manager :=
  { events := fun k => if k = userID then some xs else c.events k }

/-- Go `c.events[userID][i].f = v`: an assignment to a field of the element at
index `i` of the stored slice, written through the slice's backing array (the
map entry itself is not reassigned). -/
def setElem (c : Manager) (userID : Int) (i : Nat) (f : Event → Event) : Manager :=
  { events := fun k =>
      if k = userID then
        match c.events k with
        | some xs => some (xs.modify f i)
        | none => none
      else c.events k }

end Manager

/-! ## The operations -/

/-- Go `NewManager`: a store with an empty map. -/
def NewManager : Manager := { events := fun _ => none }

/-- Go `Manager.CreateEvent`. -/
def CreateEvent (c : Manager) (e : Event) : Manager × Option String :=
  (c.put e.UserID (c.get e.UserID ++ [e]), none)

/-- The loop `for i, e := range c.events[userID]` of `UpdateEvent`, entered at
index `i` with the elements still to visit. -/
def UpdateEvent.loop (c : Manager) (userID : Int) (date : Time) (title newText : String) :
    Nat → List Event → Manager × Option String
  | _, [] => (c, errNotFound)
  | i, e :: rest =>
    if e.Date.Equal date then
      let c1 := c.setElem userID i (fun x => { x with Text := newText })
      let c2 := c1.setElem userID i (fun x => { x with Title := title })
      (c2, none)
    else UpdateEvent.loop c userID date title newText (i + 1) rest

/-- Go `Manager.UpdateEvent`. -/
def UpdateEvent (c : Manager) (userID : Int) (date : Time) (title newText : String) :
    Manager × Option String :=
  UpdateEvent.loop c userID date title newText 0 (c.get userID)

/-- The loop `for i, e := range events` of `DeleteEvent`, entered at index `i`
with the elements still to visit; `events` is the whole slice read before the
loop. -/
def DeleteEvent.loop (c : Manager) (userID : Int) (date : Time) (events : List Event) :
    Nat → List Event → Manager × Option String
  | _, [] => (c, errNotFound)
  | i, e :: rest =>
    if e.Date.Equal date then
      (c.put userID (events.take i ++ events.drop (i + 1)), none)
    else DeleteEvent.loop c userID date events (i + 1) rest

/-- Go `Manager.DeleteEvent`. -/
def DeleteEvent (c : Manager) (userID : Int) (date : Time) : Manager × Option String :=
  let events := c.get userID
  DeleteEvent.loop c userID date events 0 events

/-- The loop of `GetEventsForRange`: `result` is the slice built so far. -/
def GetEventsForRange.loop (start stop : Time) : List Event → List Event → List Event
  | result, [] => result
  | result, e :: rest =>
    if !e.Date.Before start && !e.Date.After stop then
      GetEventsForRange.loop start stop (result ++ [e]) rest
    else GetEventsForRange.loop start stop result rest

/-- Go `Manager.GetEventsForRange`. -/
def GetEventsForRange (c : Manager) (userID : Int) (start stop : Time) : List Event :=
  GetEventsForRange.loop start stop [] (c.get userID)

/-! ## The query handlers (`internal/service/handlers.go`) -/

/-- Go `t.AddDate(0, 0, days)` for a time in UTC, which is what
`time.Parse("2006-01-02", s)` yields: the same wall clock `days` days later,
without a monotonic reading. -/
def Time.AddDate (t : Time) (days : Int) : Time :=
  { sec := t.sec + days * 86400, nsec := t.nsec, mono := none, loc := t.loc }

/-- Go `Server.handleGetEvents` once `user_id` and `date` have been parsed: the
events put under `"result"` in the response. -/
def handleGetEvents (s : Manager) (userID : Int) (startDate : Time) (days : Int) : List Event :=
  let endDate := if days > 0 then startDate.AddDate days else startDate
  GetEventsForRange s userID startDate endDate

/-- Go `Server.handleGetDayEvents`. -/
def handleGetDayEvents (s : Manager) (userID : Int) (startDate : Time) : List Event :=
  handleGetEvents s userID startDate 0

/-- Go `Server.handleGetWeekEvents`. -/
def handleGetWeekEvents (s : Manager) (userID : Int) (startDate : Time) : List Event :=
  handleGetEvents s userID startDate 7

/-! ## Sequences of calls -/

/-- One call of a store method with its arguments. -/
inductive Call where
  | create (e : Event)
  | update (userID : Int) (date : Time) (title newText : String)
  | delete (userID : Int) (date : Time)
  | query (userID : Int) (start stop : Time)
  deriving DecidableEq, Repr

/-- What a call returns: the `error` of a mutating method or the slice of a
range query. -/
inductive Reply where
  | err (e : Option String)
  | events (xs : List Event)
  deriving DecidableEq, Repr

/-- The event a call creates, if it is a `CreateEvent`. -/
def Call.created : Call → Option Event
  | .create e => some e
  | _ => none

/-- Whether the call is a `GetEventsForRange`. -/
def Call.isQuery : Call → Bool
  | .query _ _ _ => true
  | _ => false

/-- One call made on the store `c`: the store afterwards and the reply. -/
def call (c : Manager) : Call → Manager × Reply
  | .create e => ((CreateEvent c e).1, .err (CreateEvent c e).2)
  | .update u d T X => ((UpdateEvent c u d T X).1, .err (UpdateEvent c u d T X).2)
  | .delete u d => ((DeleteEvent c u d).1, .err (DeleteEvent c u d).2)
  | .query u start stop => (c, .events (GetEventsForRange c u start stop))

/-- The calls made one after the other from the store `c`: the final store and
the replies in call order. -/
def run (c : Manager) : List Call → Manager × List Reply
  | [] => (c, [])
  | x :: rest => ((run (call c x).1 rest).1, (call c x).2 :: (run (call c x).1 rest).2)

/-! ## Sample data -/

/-- Midnight UTC of the day `d` days after the epoch, as `time.Parse` yields
it: no monotonic reading. -/
def day (d : Int) : Time := { sec := d * 86400, nsec := 0, mono := none, loc := 0 }

def evA : Event := { UserID := 1, Date := day 10, Title := "A", Text := "a" }
def evB : Event := { UserID := 1, Date := day 11, Title := "B", Text := "b" }
def evC : Event := { UserID := 1, Date := day 10, Title := "C", Text := "c" }
def evD : Event := { UserID := 2, Date := day 10, Title := "D", Text := "d" }

/-- A store holding `evB, evA, evC` for user 1 and `evD` for user 2. -/
def sampleStore : Manager :=
  (CreateEvent (CreateEvent (CreateEvent (CreateEvent NewManager evB).1 evA).1 evC).1 evD).1

/-- The instant 2024-01-10 00:00 UTC, day 19732 after the epoch. -/
def jan10 : Time := day 19732

/-- The instant 2024-01-11 00:00 UTC. -/
def jan11 : Time := day 19733

def exA : Event := { UserID := 1, Date := jan10, Title := "A", Text := "a" }
def exB : Event := { UserID := 1, Date := jan11, Title := "B", Text := "b" }

/-- The store of the end-to-end example after its two creates. -/
def exStore : Manager := (CreateEvent (CreateEvent NewManager exA).1 exB).1

def evDay17 : Event := { UserID := 1, Date := day 17, Title := "E", Text := "e" }
def evDay18 : Event := { UserID := 1, Date := day 18, Title := "F", Text := "f" }

/-- A store holding for user 1 events dated day 10, day 17 and day 18. -/
def weekStore : Manager :=
  (CreateEvent (CreateEvent (CreateEvent NewManager evA).1 evDay17).1 evDay18).1

/-- Three creates for user 1 with two range queries in between. -/
def sampleCalls : List Call :=
  [.create evB, .query 1 (day 0) (day 20), .create evA, .query 2 (day 10) (day 10), .create evC]

/-- Creates, an update and a delete for users 1 and 2. -/
def mixedCalls : List Call :=
  [.create evA, .create evD, .update 1 (day 10) "T" "X", .delete 2 (day 10), .create evB]

/-- The hundred creates of the concurrency test, one after the other. -/
def hundredCreates : List Call := List.replicate 100 (.create evA)

/-- The fifty deletes of the concurrency test, one after the other. -/
def fiftyDeletes : List Call := List.replicate 50 (.delete 1 (day 10))

/-! ## Facts about `time.Time` comparisons -/

/-- For one pair of dates exactly the dates that are neither before nor after
are the equal ones. -/
theorem Time.not_before_not_after (t u : Time) :
    (!t.Before u && !t.After u) = t.Equal u := by
  unfold Time.Before Time.After Time.Equal
  rcases ht : t.mono with _ | a <;> rcases hu : u.mono with _ | b <;>
    simp only [] <;> rw [Bool.eq_iff_iff] <;>
    simp only [Bool.and_eq_true, Bool.or_eq_true, Bool.not_eq_true', decide_eq_true_eq,
      decide_eq_false_iff_not, Bool.or_eq_false_iff, Bool.and_eq_false_iff] <;> omega

/-- The spec's `start <= t` is the code's `!t.Before(start)`. -/
theorem Time.le_eq_not_before (s t : Time) : Time.le s t = !t.Before s := by
  unfold Time.le Time.Before Time.Equal
  rcases ht : t.mono with _ | a <;> rcases hs : s.mono with _ | b <;>
    simp only [] <;> rw [Bool.eq_iff_iff] <;>
    simp only [Bool.and_eq_true, Bool.or_eq_true, Bool.not_eq_true', decide_eq_true_eq,
      decide_eq_false_iff_not, Bool.or_eq_false_iff, Bool.and_eq_false_iff] <;> omega

/-- The spec's `t <= stop` is the code's `!t.After(stop)`. -/
theorem Time.le_eq_not_after (t e : Time) : Time.le t e = !t.After e := by
  unfold Time.le Time.Before Time.After Time.Equal
  rcases ht : t.mono with _ | a <;> rcases he : e.mono with _ | b <;>
    simp only [] <;> rw [Bool.eq_iff_iff] <;>
    simp only [Bool.and_eq_true, Bool.or_eq_true, Bool.not_eq_true', decide_eq_true_eq,
      decide_eq_false_iff_not, Bool.or_eq_false_iff, Bool.and_eq_false_iff] <;> omega

/-! ## The loops -/

theorem GetEventsForRange_loop_eq (start stop : Time) (xs : List Event) :
    ∀ result : List Event, GetEventsForRange.loop start stop result xs =
      result ++ xs.filter (fun e => !e.Date.Before start && !e.Date.After stop) := by
  induction xs with
  | nil => intro result; simp [GetEventsForRange.loop]
  | cons e rest ih =>
    intro result
    by_cases h : (!e.Date.Before start && !e.Date.After stop) = true
    · simp [GetEventsForRange.loop, h, ih, List.filter_cons]
    · simp only [Bool.not_eq_true] at h
      simp [GetEventsForRange.loop, h, ih, List.filter_cons]

/-- A list with a matching element splits at its first match. -/
theorem exists_first_match (p : Event → Bool) (xs : List Event)
    (h : ∃ e ∈ xs, p e = true) :
    ∃ a e b, xs = a ++ e :: b ∧ (∀ x ∈ a, p x = false) ∧ p e = true := by
  induction xs with
  | nil => simp at h
  | cons x rest ih =>
    by_cases hx : p x = true
    · exact ⟨[], x, rest, rfl, by simp, hx⟩
    · simp only [Bool.not_eq_true] at hx
      have h2 : ∃ e ∈ rest, p e = true := by
        obtain ⟨e, he, hpe⟩ := h
        rcases List.mem_cons.mp he with rfl | he
        · simp [hx] at hpe
        · exact ⟨e, he, hpe⟩
      obtain ⟨a, e, b, hab, ha, he⟩ := ih h2
      refine ⟨x :: a, e, b, by simp [hab], ?_, he⟩
      intro y hy
      rcases List.mem_cons.mp hy with rfl | hy
      · exact hx
      · exact ha y hy

theorem UpdateEvent_loop_found (c : Manager) (u : Int) (d : Time) (T X : String)
    (a : List Event) (e : Event) (b : List Event)
    (ha : ∀ x ∈ a, x.Date.Equal d = false) (he : e.Date.Equal d = true) :
    ∀ i, UpdateEvent.loop c u d T X i (a ++ e :: b) =
      (((c.setElem u (i + a.length) (fun x => { x with Text := X })).setElem u (i + a.length)
        (fun x => { x with Title := T })), none) := by
  induction a with
  | nil => intro i; simp [UpdateEvent.loop, he]
  | cons x a ih =>
    intro i
    have hx : x.Date.Equal d = false := ha x (List.mem_cons_self _ _)
    have ha2 : ∀ y ∈ a, y.Date.Equal d = false := fun y hy => ha y (List.mem_cons_of_mem _ hy)
    change UpdateEvent.loop c u d T X i (x :: (a ++ e :: b)) = _
    rw [UpdateEvent.loop]
    simp only [hx, Bool.false_eq_true, if_false]
    rw [ih ha2 (i + 1)]
    simp only [List.length_cons]
    have : i + 1 + a.length = i + (a.length + 1) := by omega
    rw [this]

theorem UpdateEvent_loop_none (c : Manager) (u : Int) (d : Time) (T X : String)
    (xs : List Event) (h : ∀ x ∈ xs, x.Date.Equal d = false) :
    ∀ i, UpdateEvent.loop c u d T X i xs = (c, errNotFound) := by
  induction xs with
  | nil => intro i; rfl
  | cons x rest ih =>
    intro i
    have hx : x.Date.Equal d = false := h x (List.mem_cons_self _ _)
    simp only [UpdateEvent.loop, hx, Bool.false_eq_true, if_false]
    exact ih (fun y hy => h y (List.mem_cons_of_mem _ hy)) (i + 1)

theorem DeleteEvent_loop_found (c : Manager) (u : Int) (d : Time) (events : List Event)
    (a : List Event) (e : Event) (b : List Event)
    (ha : ∀ x ∈ a, x.Date.Equal d = false) (he : e.Date.Equal d = true) :
    ∀ i, DeleteEvent.loop c u d events i (a ++ e :: b) =
      (c.put u (events.take (i + a.length) ++ events.drop (i + a.length + 1)), none) := by
  induction a with
  | nil => intro i; simp [DeleteEvent.loop, he]
  | cons x a ih =>
    intro i
    have hx : x.Date.Equal d = false := ha x (List.mem_cons_self _ _)
    have ha2 : ∀ y ∈ a, y.Date.Equal d = false := fun y hy => ha y (List.mem_cons_of_mem _ hy)
    change DeleteEvent.loop c u d events i (x :: (a ++ e :: b)) = _
    rw [DeleteEvent.loop]
    simp only [hx, Bool.false_eq_true, if_false]
    rw [ih ha2 (i + 1)]
    simp only [List.length_cons]
    have : i + 1 + a.length = i + (a.length + 1) := by omega
    rw [this]

theorem DeleteEvent_loop_none (c : Manager) (u : Int) (d : Time) (events : List Event)
    (xs : List Event) (h : ∀ x ∈ xs, x.Date.Equal d = false) :
    ∀ i, DeleteEvent.loop c u d events i xs = (c, errNotFound) := by
  induction xs with
  | nil => intro i; rfl
  | cons x rest ih =>
    intro i
    have hx : x.Date.Equal d = false := h x (List.mem_cons_self _ _)
    simp only [DeleteEvent.loop, hx, Bool.false_eq_true, if_false]
    exact ih (fun y hy => h y (List.mem_cons_of_mem _ hy)) (i + 1)

/-! ## The store after each operation -/

theorem Manager.get_of_events (c : Manager) (u : Int) (xs : List Event)
    (h : c.events u = some xs) : c.get u = xs := by
  simp [Manager.get, h]

theorem Manager.events_of_get_cons (c : Manager) (u : Int) (a : List Event) (e : Event)
    (b : List Event) (h : c.get u = a ++ e :: b) : c.events u = some (a ++ e :: b) := by
  unfold Manager.get at h
  rcases hc : c.events u with _ | xs
  · rw [hc] at h; simp at h
  · rw [hc] at h; simp only at h; rw [h]

theorem Manager.get_put_same (c : Manager) (u : Int) (xs : List Event) :
    (c.put u xs).get u = xs := by
  simp [Manager.get, Manager.put]

theorem Manager.events_put_other (c : Manager) (u v : Int) (xs : List Event) (h : v ≠ u) :
    (c.put u xs).events v = c.events v := by
  simp [Manager.put, h]

theorem modify_append_cons (f : Event → Event) (a : List Event) (e : Event) (b : List Event) :
    (a ++ e :: b).modify f a.length = a ++ f e :: b := by
  induction a with
  | nil => rfl
  | cons x a ih => simpa [List.modify] using ih

/-- A successful update, given the split of the partition at its first match:
the matched event gets the new title and text and nothing else changes. -/
theorem UpdateEvent_of_split (c : Manager) (u : Int) (d : Time) (T X : String)
    (a : List Event) (e : Event) (b : List Event) (hxs : c.get u = a ++ e :: b)
    (ha : ∀ x ∈ a, x.Date.Equal d = false) (he : e.Date.Equal d = true) :
    UpdateEvent c u d T X =
      (c.put u (a ++ { UserID := e.UserID, Date := e.Date, Title := T, Text := X } :: b), none) := by
  have hev := Manager.events_of_get_cons c u a e b hxs
  unfold UpdateEvent
  rw [hxs, UpdateEvent_loop_found c u d T X a e b ha he 0]
  simp only [Nat.zero_add, Prod.mk.injEq, and_true]
  unfold Manager.setElem Manager.put
  congr 1
  funext k
  by_cases hk : k = u
  · subst hk
    simp only [if_true, hev, modify_append_cons]
  · simp only [hk, if_false]

/-- A successful delete, given the split of the partition at its first match:
the matched event is dropped and nothing else changes. -/
theorem DeleteEvent_of_split (c : Manager) (u : Int) (d : Time)
    (a : List Event) (e : Event) (b : List Event) (hxs : c.get u = a ++ e :: b)
    (ha : ∀ x ∈ a, x.Date.Equal d = false) (he : e.Date.Equal d = true) :
    DeleteEvent c u d = (c.put u (a ++ b), none) := by
  unfold DeleteEvent
  simp only []
  rw [hxs, DeleteEvent_loop_found c u d (a ++ e :: b) a e b ha he 0]
  simp

/-- An update that finds no match returns the error and the store itself. -/
theorem UpdateEvent_of_no_match (c : Manager) (u : Int) (d : Time) (T X : String)
    (h : ∀ x ∈ c.get u, x.Date.Equal d = false) :
    UpdateEvent c u d T X = (c, errNotFound) :=
  UpdateEvent_loop_none c u d T X (c.get u) h 0

/-- A delete that finds no match returns the error and the store itself. -/
theorem DeleteEvent_of_no_match (c : Manager) (u : Int) (d : Time)
    (h : ∀ x ∈ c.get u, x.Date.Equal d = false) :
    DeleteEvent c u d = (c, errNotFound) :=
  DeleteEvent_loop_none c u d (c.get u) (c.get u) h 0

/-- Either some event of the list matches the date or none does. -/
theorem match_or_no_match (d : Time) (xs : List Event) :
    (∃ e ∈ xs, e.Date.Equal d = true) ∨ (∀ x ∈ xs, x.Date.Equal d = false) := by
  by_cases h : ∃ e ∈ xs, e.Date.Equal d = true
  · exact Or.inl h
  · refine Or.inr (fun x hx => ?_)
    by_contra hne
    exact h ⟨x, hx, by simpa using hne⟩

/-- The first-match split as indices: the match sits at index `a.length`, and
no earlier index matches. -/
theorem split_index_facts (d : Time) (a : List Event) (e : Event) (b : List Event)
    (ha : ∀ x ∈ a, x.Date.Equal d = false) :
    ∃ hi : a.length < (a ++ e :: b).length,
      (a ++ e :: b)[a.length] = e ∧
      ∀ j, ∀ hj : j < (a ++ e :: b).length, j < a.length →
        ((a ++ e :: b)[j]).Date.Equal d = false := by
  refine ⟨by simp, List.getElem_of_append rfl rfl, ?_⟩
  intro j hj hlt
  rw [List.getElem_append_left hlt]
  exact ha _ (List.getElem_mem _)

/-! ## The contracts of the four operations -/

/-- C1: `GetEventsForRange(u, start, stop)` returns exactly the events of `u`'s
partition with `start <= Date` and `Date <= stop`, both ends inclusive, each as
often as it is stored and in the order of the partition; in particular the
result is a sub-sequence of the partition. -/
theorem GetEventsForRange_eq_filter (c : Manager) (u : Int) (start stop : Time) :
    GetEventsForRange c u start stop =
        (c.get u).filter (fun e => Time.le start e.Date && Time.le e.Date stop) ∧
      (GetEventsForRange c u start stop).Sublist (c.get u) := by
  have h : GetEventsForRange c u start stop =
      (c.get u).filter (fun e => Time.le start e.Date && Time.le e.Date stop) := by
    unfold GetEventsForRange
    rw [GetEventsForRange_loop_eq, List.nil_append]
    congr 1
    funext e
    rw [Time.le_eq_not_before, Time.le_eq_not_after]
  exact ⟨h, h ▸ List.filter_sublist _⟩

/-- C2: when `u`'s partition holds an event dated `d`, `UpdateEvent(u, d, T, X)`
returns nil, and the partition afterwards is the old one with the event at the
least matching index `i` given title `T` and text `X` (same `UserID` and
`Date`): the length is the same and every other index holds what it held. -/
theorem UpdateEvent_updates_first_match (c : Manager) (u : Int) (d : Time) (T X : String)
    (h : ∃ e ∈ c.get u, e.Date.Equal d = true) :
    (UpdateEvent c u d T X).2 = none ∧
      ∃ i, ∃ hi : i < (c.get u).length,
        ((c.get u)[i]).Date.Equal d = true ∧
        (∀ j, ∀ hj : j < (c.get u).length, j < i → ((c.get u)[j]).Date.Equal d = false) ∧
        (UpdateEvent c u d T X).1.events u = some ((c.get u).set i
          { UserID := ((c.get u)[i]).UserID, Date := ((c.get u)[i]).Date,
            Title := T, Text := X }) ∧
        ((UpdateEvent c u d T X).1.get u).length = (c.get u).length ∧
        ∀ j, j ≠ i → ((UpdateEvent c u d T X).1.get u)[j]? = (c.get u)[j]? := by
  obtain ⟨a, e, b, hab, ha, he⟩ := exists_first_match (fun x => x.Date.Equal d) (c.get u) h
  rw [UpdateEvent_of_split c u d T X a e b hab ha he]
  simp only [Manager.get_put_same]
  generalize c.get u = xs at hab
  subst hab
  obtain ⟨hi, hget, hleast⟩ := split_index_facts d a e b ha
  refine ⟨trivial, a.length, hi, ?_, hleast, ?_, by simp, ?_⟩
  · rw [hget]; exact he
  · rw [hget]; simp [Manager.put]
  · intro j hj
    rcases Nat.lt_or_gt_of_ne hj with hlt | hgt
    · rw [List.getElem?_append_left hlt, List.getElem?_append_left hlt]
    · rw [List.getElem?_append_right (Nat.le_of_lt hgt),
        List.getElem?_append_right (Nat.le_of_lt hgt)]
      obtain ⟨k, hk⟩ : ∃ k, j - a.length = k + 1 := ⟨j - a.length - 1, by omega⟩
      rw [hk]; rfl

theorem UpdateEvent_updates_first_match_witness :
    (∃ e ∈ sampleStore.get 1, e.Date.Equal (day 10) = true) ∧
      (UpdateEvent sampleStore 1 (day 10) "T" "X").2 = none ∧
      ∃ i, ∃ hi : i < (sampleStore.get 1).length,
        ((sampleStore.get 1)[i]).Date.Equal (day 10) = true ∧
        (∀ j, ∀ hj : j < (sampleStore.get 1).length, j < i →
          ((sampleStore.get 1)[j]).Date.Equal (day 10) = false) ∧
        (UpdateEvent sampleStore 1 (day 10) "T" "X").1.events 1 = some ((sampleStore.get 1).set i
          { UserID := ((sampleStore.get 1)[i]).UserID, Date := ((sampleStore.get 1)[i]).Date,
            Title := "T", Text := "X" }) ∧
        ((UpdateEvent sampleStore 1 (day 10) "T" "X").1.get 1).length =
          (sampleStore.get 1).length ∧
        ∀ j, j ≠ i →
          ((UpdateEvent sampleStore 1 (day 10) "T" "X").1.get 1)[j]? = (sampleStore.get 1)[j]? :=
  ⟨⟨evA, by decide, by decide⟩,
    UpdateEvent_updates_first_match sampleStore 1 (day 10) "T" "X" ⟨evA, by decide, by decide⟩⟩

/-- C3: when `u`'s partition `xs` holds an event dated `d`, `DeleteEvent(u, d)`
returns nil, and the partition afterwards is `xs` without the element at the
least matching index `i`: the elements before `i` followed by those after it,
one element shorter and in the old order. -/
theorem DeleteEvent_removes_first_match (c : Manager) (u : Int) (d : Time)
    (h : ∃ e ∈ c.get u, e.Date.Equal d = true) :
    (DeleteEvent c u d).2 = none ∧
      ∃ i, ∃ hi : i < (c.get u).length,
        ((c.get u)[i]).Date.Equal d = true ∧
        (∀ j, ∀ hj : j < (c.get u).length, j < i → ((c.get u)[j]).Date.Equal d = false) ∧
        (DeleteEvent c u d).1.events u = some ((c.get u).take i ++ (c.get u).drop (i + 1)) ∧
        (DeleteEvent c u d).1.get u = (c.get u).eraseIdx i ∧
        ((DeleteEvent c u d).1.get u).length + 1 = (c.get u).length ∧
        ((DeleteEvent c u d).1.get u).Sublist (c.get u) := by
  obtain ⟨a, e, b, hab, ha, he⟩ := exists_first_match (fun x => x.Date.Equal d) (c.get u) h
  rw [DeleteEvent_of_split c u d a e b hab ha he]
  simp only [Manager.get_put_same]
  generalize c.get u = xs at hab
  subst hab
  obtain ⟨hi, hget, hleast⟩ := split_index_facts d a e b ha
  refine ⟨trivial, a.length, hi, ?_, hleast, ?_, ?_, by simp; omega, ?_⟩
  · rw [hget]; exact he
  · simp [Manager.put]
  · rw [List.eraseIdx_append_of_length_le (Nat.le_refl _)]; simp
  · exact List.Sublist.append (List.Sublist.refl a) (List.sublist_cons_self e b)

theorem DeleteEvent_removes_first_match_witness :
    (∃ e ∈ sampleStore.get 1, e.Date.Equal (day 10) = true) ∧
      (DeleteEvent sampleStore 1 (day 10)).2 = none ∧
      ∃ i, ∃ hi : i < (sampleStore.get 1).length,
        ((sampleStore.get 1)[i]).Date.Equal (day 10) = true ∧
        (∀ j, ∀ hj : j < (sampleStore.get 1).length, j < i →
          ((sampleStore.get 1)[j]).Date.Equal (day 10) = false) ∧
        (DeleteEvent sampleStore 1 (day 10)).1.events 1 =
          some ((sampleStore.get 1).take i ++ (sampleStore.get 1).drop (i + 1)) ∧
        (DeleteEvent sampleStore 1 (day 10)).1.get 1 = (sampleStore.get 1).eraseIdx i ∧
        ((DeleteEvent sampleStore 1 (day 10)).1.get 1).length + 1 = (sampleStore.get 1).length ∧
        ((DeleteEvent sampleStore 1 (day 10)).1.get 1).Sublist (sampleStore.get 1) :=
  ⟨⟨evA, by decide, by decide⟩,
    DeleteEvent_removes_first_match sampleStore 1 (day 10) ⟨evA, by decide, by decide⟩⟩

/-- C4: `CreateEvent(e)` returns nil for every store and every event, and the
partition of `e.UserID` afterwards is the old one (the empty one when the user
had none) followed by `e`: one element longer, the old events where they were. -/
theorem CreateEvent_appends (c : Manager) (e : Event) :
    (CreateEvent c e).2 = none ∧
      (CreateEvent c e).1.events e.UserID = some (c.get e.UserID ++ [e]) ∧
      (CreateEvent c e).1.get e.UserID = c.get e.UserID ++ [e] ∧
      ((CreateEvent c e).1.get e.UserID).length = (c.get e.UserID).length + 1 ∧
      ((CreateEvent c e).1.get e.UserID).take (c.get e.UserID).length = c.get e.UserID ∧
      ((CreateEvent c e).1.get e.UserID).getLast? = some e := by
  have hg : (CreateEvent c e).1.get e.UserID = c.get e.UserID ++ [e] :=
    Manager.get_put_same c e.UserID _
  rw [hg]
  refine ⟨rfl, ?_, rfl, by simp, by simp, by simp⟩
  simp [CreateEvent, Manager.put]

/-- C5: `UpdateEvent(u, d, T, X)` returns either nil or the error "event not
found"; it returns the error exactly when `u` has no partition or no event of
`u`'s partition is dated `d`; and when it returns an error the store is the
one it was called on. -/
theorem UpdateEvent_not_found_iff (c : Manager) (u : Int) (d : Time) (T X : String) :
    ((UpdateEvent c u d T X).2 = none ∨ (UpdateEvent c u d T X).2 = some "event not found") ∧
      ((UpdateEvent c u d T X).2 = some "event not found" ↔
        (c.events u = none ∨ ∀ e ∈ c.get u, e.Date.Equal d = false)) ∧
      ((UpdateEvent c u d T X).2 ≠ none → (UpdateEvent c u d T X).1 = c) := by
  have hnone : c.events u = none → ∀ e ∈ c.get u, e.Date.Equal d = false := by
    intro h e he
    simp [Manager.get, h] at he
  rcases match_or_no_match d (c.get u) with hm | hn
  · obtain ⟨a, e, b, hab, ha, he⟩ := exists_first_match (fun x => x.Date.Equal d) (c.get u) hm
    rw [UpdateEvent_of_split c u d T X a e b hab ha he]
    refine ⟨Or.inl rfl, ⟨fun h => by simp at h, fun h => ?_⟩, fun h => absurd rfl h⟩
    obtain ⟨x, hx, hxd⟩ := hm
    have hall : ∀ e ∈ c.get u, e.Date.Equal d = false := h.elim hnone id
    rw [hall x hx] at hxd
    exact absurd hxd (by decide)
  · rw [UpdateEvent_of_no_match c u d T X hn]
    exact ⟨Or.inr rfl, ⟨fun _ => Or.inr hn, fun _ => rfl⟩, fun _ => rfl⟩

theorem UpdateEvent_not_found_iff_witness :
    (sampleStore.events 3 = none ∨ ∀ e ∈ sampleStore.get 3, e.Date.Equal (day 10) = false) ∧
      (UpdateEvent sampleStore 3 (day 10) "T" "X").2 = some "event not found" ∧
      (UpdateEvent sampleStore 3 (day 10) "T" "X").1 = sampleStore :=
  have h := UpdateEvent_not_found_iff sampleStore 3 (day 10) "T" "X"
  have hf : (UpdateEvent sampleStore 3 (day 10) "T" "X").2 = some "event not found" :=
    h.2.1.mpr (Or.inl rfl)
  ⟨Or.inl rfl, hf, h.2.2 (by rw [hf]; exact Option.some_ne_none _)⟩

/-- C6: `DeleteEvent(u, d)` returns either nil or the error "event not found";
it returns the error exactly when `u` has no partition or no event of `u`'s
partition is dated `d`; and when it returns an error the store is the one it
was called on. -/
theorem DeleteEvent_not_found_iff (c : Manager) (u : Int) (d : Time) :
    ((DeleteEvent c u d).2 = none ∨ (DeleteEvent c u d).2 = some "event not found") ∧
      ((DeleteEvent c u d).2 = some "event not found" ↔
        (c.events u = none ∨ ∀ e ∈ c.get u, e.Date.Equal d = false)) ∧
      ((DeleteEvent c u d).2 ≠ none → (DeleteEvent c u d).1 = c) := by
  have hnone : c.events u = none → ∀ e ∈ c.get u, e.Date.Equal d = false := by
    intro h e he
    simp [Manager.get, h] at he
  rcases match_or_no_match d (c.get u) with hm | hn
  · obtain ⟨a, e, b, hab, ha, he⟩ := exists_first_match (fun x => x.Date.Equal d) (c.get u) hm
    rw [DeleteEvent_of_split c u d a e b hab ha he]
    refine ⟨Or.inl rfl, ⟨fun h => by simp at h, fun h => ?_⟩, fun h => absurd rfl h⟩
    obtain ⟨x, hx, hxd⟩ := hm
    have hall : ∀ e ∈ c.get u, e.Date.Equal d = false := h.elim hnone id
    rw [hall x hx] at hxd
    exact absurd hxd (by decide)
  · rw [DeleteEvent_of_no_match c u d hn]
    exact ⟨Or.inr rfl, ⟨fun _ => Or.inr hn, fun _ => rfl⟩, fun _ => rfl⟩

theorem DeleteEvent_not_found_iff_witness :
    (sampleStore.events 1 = none ∨ ∀ e ∈ sampleStore.get 1, e.Date.Equal (day 12) = false) ∧
      (DeleteEvent sampleStore 1 (day 12)).2 = some "event not found" ∧
      (DeleteEvent sampleStore 1 (day 12)).1 = sampleStore :=
  have h := DeleteEvent_not_found_iff sampleStore 1 (day 12)
  have hn : ∀ e ∈ sampleStore.get 1, e.Date.Equal (day 12) = false := by decide
  have hf : (DeleteEvent sampleStore 1 (day 12)).2 = some "event not found" :=
    h.2.1.mpr (Or.inr hn)
  ⟨Or.inr hn, hf, h.2.2 (by rw [hf]; exact Option.some_ne_none _)⟩

/-- The range query reads nothing but the queried user's map entry. -/
theorem GetEventsForRange_congr (c c2 : Manager) (v : Int) (start stop : Time)
    (h : c2.events v = c.events v) :
    GetEventsForRange c2 v start stop = GetEventsForRange c v start stop := by
  unfold GetEventsForRange Manager.get
  rw [h]

theorem UpdateEvent_events_other (c : Manager) (u v : Int) (d : Time) (T X : String)
    (hv : v ≠ u) : (UpdateEvent c u d T X).1.events v = c.events v := by
  rcases match_or_no_match d (c.get u) with hm | hn
  · obtain ⟨a, e, b, hab, ha, he⟩ := exists_first_match (fun x => x.Date.Equal d) (c.get u) hm
    rw [UpdateEvent_of_split c u d T X a e b hab ha he]
    exact Manager.events_put_other c u v _ hv
  · rw [UpdateEvent_of_no_match c u d T X hn]

theorem DeleteEvent_events_other (c : Manager) (u v : Int) (d : Time)
    (hv : v ≠ u) : (DeleteEvent c u d).1.events v = c.events v := by
  rcases match_or_no_match d (c.get u) with hm | hn
  · obtain ⟨a, e, b, hab, ha, he⟩ := exists_first_match (fun x => x.Date.Equal d) (c.get u) hm
    rw [DeleteEvent_of_split c u d a e b hab ha he]
    exact Manager.events_put_other c u v _ hv
  · rw [DeleteEvent_of_no_match c u d hn]

/-- C7: partition isolation. For users `v ≠ u`, creating an event of user `u`,
updating for `u` and deleting for `u`, successful or not, leave the map entry
of `v` as it was, and every range query for `v` returns what it returned. -/
theorem partition_isolation (c : Manager) (u v : Int) (hv : v ≠ u) :
    (∀ e : Event, e.UserID = u →
        (CreateEvent c e).1.events v = c.events v ∧
        ∀ start stop, GetEventsForRange (CreateEvent c e).1 v start stop =
          GetEventsForRange c v start stop) ∧
      (∀ d T X,
        (UpdateEvent c u d T X).1.events v = c.events v ∧
        ∀ start stop, GetEventsForRange (UpdateEvent c u d T X).1 v start stop =
          GetEventsForRange c v start stop) ∧
      (∀ d,
        (DeleteEvent c u d).1.events v = c.events v ∧
        ∀ start stop, GetEventsForRange (DeleteEvent c u d).1 v start stop =
          GetEventsForRange c v start stop) := by
  refine ⟨fun e he => ?_, fun d T X => ?_, fun d => ?_⟩
  · have h : (CreateEvent c e).1.events v = c.events v :=
      Manager.events_put_other c e.UserID v _ (he ▸ hv)
    exact ⟨h, fun start stop => GetEventsForRange_congr c _ v start stop h⟩
  · have h := UpdateEvent_events_other c u v d T X hv
    exact ⟨h, fun start stop => GetEventsForRange_congr c _ v start stop h⟩
  · have h := DeleteEvent_events_other c u v d hv
    exact ⟨h, fun start stop => GetEventsForRange_congr c _ v start stop h⟩

theorem partition_isolation_witness :
    (2 : Int) ≠ 1 ∧ evA.UserID = 1 ∧
      (CreateEvent sampleStore evA).1.events 2 = sampleStore.events 2 ∧
      (UpdateEvent sampleStore 1 (day 10) "T" "X").1.events 2 = sampleStore.events 2 ∧
      (DeleteEvent sampleStore 1 (day 10)).1.events 2 = sampleStore.events 2 ∧
      (DeleteEvent sampleStore 1 (day 12)).1.events 2 = sampleStore.events 2 ∧
      GetEventsForRange (DeleteEvent sampleStore 1 (day 10)).1 2 (day 10) (day 10) =
        GetEventsForRange sampleStore 2 (day 10) (day 10) :=
  have h := partition_isolation sampleStore 1 2 (by decide)
  ⟨by decide, rfl, (h.1 evA rfl).1, (h.2.1 (day 10) "T" "X").1, (h.2.2 (day 10)).1,
    (h.2.2 (day 12)).1, (h.2.2 (day 10)).2 (day 10) (day 10)⟩

/-- C8: when `u`'s partition holds `k >= 1` events dated `d`, `DeleteEvent(u, d)`
returns nil and leaves `k - 1` of them: the events dated `d` afterwards are the
old ones without the first, in their order, and the events not dated `d` are
the same sequence as before. -/
theorem DeleteEvent_removes_exactly_one (c : Manager) (u : Int) (d : Time)
    (h : 1 ≤ (c.get u).countP (fun e => e.Date.Equal d)) :
    (DeleteEvent c u d).2 = none ∧
      ((DeleteEvent c u d).1.get u).countP (fun e => e.Date.Equal d) =
        (c.get u).countP (fun e => e.Date.Equal d) - 1 ∧
      ((DeleteEvent c u d).1.get u).filter (fun e => e.Date.Equal d) =
        ((c.get u).filter (fun e => e.Date.Equal d)).tail ∧
      ((DeleteEvent c u d).1.get u).filter (fun e => !e.Date.Equal d) =
        (c.get u).filter (fun e => !e.Date.Equal d) := by
  have hm : ∃ e ∈ c.get u, e.Date.Equal d = true := by
    have := List.countP_pos_iff.mp (Nat.lt_of_lt_of_le Nat.zero_lt_one h)
    simpa using this
  obtain ⟨a, e, b, hab, ha, he⟩ := exists_first_match (fun x => x.Date.Equal d) (c.get u) hm
  rw [DeleteEvent_of_split c u d a e b hab ha he]
  simp only [Manager.get_put_same]
  rw [hab]
  have hfa : a.filter (fun e => e.Date.Equal d) = [] :=
    List.filter_eq_nil_iff.mpr (fun x hx => by simp [ha x hx])
  have hca : a.countP (fun e => e.Date.Equal d) = 0 := by
    rw [List.countP_eq_length_filter, hfa]; rfl
  refine ⟨trivial, ?_, ?_, ?_⟩
  · simp [List.countP_append, List.countP_cons, hca, he]
  · simp [List.filter_append, List.filter_cons, hfa, he]
  · simp [List.filter_append, List.filter_cons, he]

theorem DeleteEvent_removes_exactly_one_witness :
    1 ≤ (sampleStore.get 1).countP (fun e => e.Date.Equal (day 10)) ∧
      (DeleteEvent sampleStore 1 (day 10)).2 = none ∧
      ((DeleteEvent sampleStore 1 (day 10)).1.get 1).countP (fun e => e.Date.Equal (day 10)) =
        (sampleStore.get 1).countP (fun e => e.Date.Equal (day 10)) - 1 ∧
      ((DeleteEvent sampleStore 1 (day 10)).1.get 1).filter (fun e => e.Date.Equal (day 10)) =
        ((sampleStore.get 1).filter (fun e => e.Date.Equal (day 10))).tail ∧
      ((DeleteEvent sampleStore 1 (day 10)).1.get 1).filter (fun e => !e.Date.Equal (day 10)) =
        (sampleStore.get 1).filter (fun e => !e.Date.Equal (day 10)) :=
  ⟨by decide, DeleteEvent_removes_exactly_one sampleStore 1 (day 10) (by decide)⟩

/-- C9: `GetEventsForRange(u, d, d)` returns exactly the events of `u`'s
partition whose date is `Equal` to `d`, the match test of `UpdateEvent` and
`DeleteEvent`, in partition order. -/
theorem GetEventsForRange_single_day (c : Manager) (u : Int) (d : Time) :
    GetEventsForRange c u d d = (c.get u).filter (fun e => e.Date.Equal d) := by
  unfold GetEventsForRange
  rw [GetEventsForRange_loop_eq, List.nil_append]
  congr 1
  funext e
  exact Time.not_before_not_after e.Date d

/-- C10: for a user without a partition `GetEventsForRange` returns the empty
sequence, whatever the bounds. -/
theorem GetEventsForRange_no_partition (c : Manager) (u : Int) (start stop : Time)
    (h : c.events u = none) : GetEventsForRange c u start stop = [] := by
  simp [GetEventsForRange, Manager.get, h, GetEventsForRange.loop]

theorem GetEventsForRange_no_partition_witness :
    sampleStore.events 3 = none ∧ GetEventsForRange sampleStore 3 (day 10) (day 11) = [] :=
  ⟨rfl, GetEventsForRange_no_partition sampleStore 3 (day 10) (day 11) rfl⟩

/-! ## Repeated calls -/

theorem Time.Equal_refl (t : Time) : t.Equal t = true := by
  unfold Time.Equal
  rcases t.mono with _ | a <;> simp

theorem Manager.put_put (c : Manager) (u : Int) (xs ys : List Event) :
    (c.put u xs).put u ys = c.put u ys := by
  unfold Manager.put
  congr 1
  funext k
  by_cases hk : k = u <;> simp [hk]

/-- An update returns nil exactly when some event of the partition matches. -/
theorem UpdateEvent_ok_iff (c : Manager) (u : Int) (d : Time) (T X : String) :
    (UpdateEvent c u d T X).2 = none ↔ ∃ e ∈ c.get u, e.Date.Equal d = true := by
  rcases match_or_no_match d (c.get u) with hm | hn
  · obtain ⟨a, e, b, hab, ha, he⟩ := exists_first_match (fun x => x.Date.Equal d) (c.get u) hm
    rw [UpdateEvent_of_split c u d T X a e b hab ha he]
    exact ⟨fun _ => hm, fun _ => rfl⟩
  · rw [UpdateEvent_of_no_match c u d T X hn]
    refine ⟨fun h => by simp [errNotFound] at h, fun ⟨x, hx, hxd⟩ => ?_⟩
    rw [hn x hx] at hxd
    exact absurd hxd (by decide)

/-- A delete returns nil exactly when some event of the partition matches. -/
theorem DeleteEvent_ok_iff (c : Manager) (u : Int) (d : Time) :
    (DeleteEvent c u d).2 = none ↔ ∃ e ∈ c.get u, e.Date.Equal d = true := by
  rcases match_or_no_match d (c.get u) with hm | hn
  · obtain ⟨a, e, b, hab, ha, he⟩ := exists_first_match (fun x => x.Date.Equal d) (c.get u) hm
    rw [DeleteEvent_of_split c u d a e b hab ha he]
    exact ⟨fun _ => hm, fun _ => rfl⟩
  · rw [DeleteEvent_of_no_match c u d hn]
    refine ⟨fun h => by simp [errNotFound] at h, fun ⟨x, hx, hxd⟩ => ?_⟩
    rw [hn x hx] at hxd
    exact absurd hxd (by decide)

/-- A delete returns nil or the not-found error, nothing else. -/
theorem DeleteEvent_err_cases (c : Manager) (u : Int) (d : Time) :
    (DeleteEvent c u d).2 = none ∨ (DeleteEvent c u d).2 = some "event not found" := by
  rcases match_or_no_match d (c.get u) with hm | hn
  · exact Or.inl ((DeleteEvent_ok_iff c u d).mpr hm)
  · rw [DeleteEvent_of_no_match c u d hn]; exact Or.inr rfl

/-- The query with both bounds `d` keeps the events that match `d`. -/
theorem GetEventsForRange_same_bounds (c : Manager) (u : Int) (d : Time) :
    GetEventsForRange c u d d = (c.get u).filter (fun e => e.Date.Equal d) := by
  unfold GetEventsForRange
  rw [GetEventsForRange_loop_eq, List.nil_append]
  congr 1
  funext e
  exact Time.not_before_not_after e.Date d

/-- A second identical update does what the first did and changes nothing. -/
theorem UpdateEvent_twice (c : Manager) (u : Int) (d : Time) (T X : String) :
    UpdateEvent (UpdateEvent c u d T X).1 u d T X = UpdateEvent c u d T X := by
  rcases match_or_no_match d (c.get u) with hm | hn
  · obtain ⟨a, e, b, hab, ha, he⟩ := exists_first_match (fun x => x.Date.Equal d) (c.get u) hm
    rw [UpdateEvent_of_split c u d T X a e b hab ha he]
    rw [UpdateEvent_of_split _ u d T X a
      { UserID := e.UserID, Date := e.Date, Title := T, Text := X } b
      (Manager.get_put_same c u _) ha he]
    rw [Manager.put_put]
  · rw [UpdateEvent_of_no_match c u d T X hn]
    exact UpdateEvent_of_no_match c u d T X hn

/-- C11, as stated, fails: user 1 of `sampleStore` holds two events dated day
10, the first `DeleteEvent(1, day 10)` returns nil and so does the second, which
is not the not-found error. -/
theorem DeleteEvent_twice_counterexample :
    (DeleteEvent sampleStore 1 (day 10)).2 = none ∧
      (DeleteEvent (DeleteEvent sampleStore 1 (day 10)).1 1 (day 10)).2 = none ∧
      (DeleteEvent (DeleteEvent sampleStore 1 (day 10)).1 1 (day 10)).2 ≠
        some "event not found" := by
  decide

/-- Two deletes in a row, given the split of the partition at its first two
matches: the first call drops the first match, the second call the second. -/
theorem DeleteEvent_twice_of_split (c : Manager) (u : Int) (d : Time)
    (a : List Event) (e1 : Event) (m : List Event) (e2 : Event) (b : List Event)
    (hxs : c.get u = a ++ e1 :: (m ++ e2 :: b))
    (ha : ∀ x ∈ a, x.Date.Equal d = false) (he1 : e1.Date.Equal d = true)
    (hm : ∀ x ∈ m, x.Date.Equal d = false) (he2 : e2.Date.Equal d = true) :
    DeleteEvent c u d = (c.put u (a ++ (m ++ e2 :: b)), none) ∧
      DeleteEvent (DeleteEvent c u d).1 u d = (c.put u (a ++ (m ++ b)), none) := by
  have h1 := DeleteEvent_of_split c u d a e1 (m ++ e2 :: b) hxs ha he1
  refine ⟨h1, ?_⟩
  rw [h1]
  have ham : ∀ x ∈ a ++ m, x.Date.Equal d = false := by
    intro x hx
    rcases List.mem_append.mp hx with hx | hx
    · exact ha x hx
    · exact hm x hx
  have hget : (c.put u (a ++ (m ++ e2 :: b))).get u = (a ++ m) ++ e2 :: b := by
    rw [Manager.get_put_same, List.append_assoc]
  rw [DeleteEvent_of_split _ u d (a ++ m) e2 b hget ham he2, Manager.put_put,
    List.append_assoc]

/-- C11, amended: when `DeleteEvent(u, d)` returns nil, an immediately following
`DeleteEvent(u, d)` returns the not-found error exactly when the partition held
one single event dated `d` before the first call, and then leaves the store as
the first call left it; it returns nil again exactly when the partition held at
least two, and then it removes the second event dated `d`: the partition is the
original one without its first two events dated `d`, all other events where
they were. -/
theorem DeleteEvent_twice_not_found_iff (c : Manager) (u : Int) (d : Time)
    (h : (DeleteEvent c u d).2 = none) :
    ((DeleteEvent (DeleteEvent c u d).1 u d).2 = some "event not found" ↔
        (c.get u).countP (fun e => e.Date.Equal d) = 1) ∧
      ((DeleteEvent (DeleteEvent c u d).1 u d).2 = none ↔
        2 ≤ (c.get u).countP (fun e => e.Date.Equal d)) ∧
      ((c.get u).countP (fun e => e.Date.Equal d) = 1 →
        (DeleteEvent (DeleteEvent c u d).1 u d).1 = (DeleteEvent c u d).1) ∧
      (2 ≤ (c.get u).countP (fun e => e.Date.Equal d) →
        ∃ a e1 m e2 b,
          c.get u = a ++ e1 :: (m ++ e2 :: b) ∧
          (∀ x ∈ a, x.Date.Equal d = false) ∧ e1.Date.Equal d = true ∧
          (∀ x ∈ m, x.Date.Equal d = false) ∧ e2.Date.Equal d = true ∧
          (DeleteEvent c u d).1.get u = a ++ (m ++ e2 :: b) ∧
          (DeleteEvent (DeleteEvent c u d).1 u d).1.get u = a ++ (m ++ b)) := by
  have hm := (DeleteEvent_ok_iff c u d).mp h
  obtain ⟨a, e, b, hab, ha, he⟩ := exists_first_match (fun x => x.Date.Equal d) (c.get u) hm
  have hca : a.countP (fun e => e.Date.Equal d) = 0 :=
    List.countP_eq_zero.mpr (fun x hx => by simp [ha x hx])
  have hcount : (c.get u).countP (fun e => e.Date.Equal d) =
      (a ++ b).countP (fun e => e.Date.Equal d) + 1 := by
    rw [hab]; simp [List.countP_append, List.countP_cons, he]; omega
  have hcb : (a ++ b).countP (fun e => e.Date.Equal d) =
      b.countP (fun e => e.Date.Equal d) := by
    rw [List.countP_append, hca, Nat.zero_add]
  have hok := DeleteEvent_ok_iff (c.put u (a ++ b)) u d
  rw [Manager.get_put_same] at hok
  have hpos : (∃ x ∈ a ++ b, x.Date.Equal d = true) ↔
      0 < (a ++ b).countP (fun e => e.Date.Equal d) := by
    rw [List.countP_pos_iff]
  have hfirst := DeleteEvent_of_split c u d a e b hab ha he
  have hsecond : (DeleteEvent (DeleteEvent c u d).1 u d).2 = none ↔
      2 ≤ (c.get u).countP (fun e => e.Date.Equal d) := by
    rw [hfirst]
    simp only []
    rw [hok, hpos, hcount]; omega
  refine ⟨?_, hsecond, ?_, ?_⟩
  · rcases DeleteEvent_err_cases (DeleteEvent c u d).1 u d with h2 | h2
    · have := hsecond.mp h2
      constructor
      · intro h3; rw [h2] at h3; exact absurd h3 (by simp)
      · intro h3; omega
    · constructor
      · intro _
        have hnot : ¬ 2 ≤ (c.get u).countP (fun e => e.Date.Equal d) := by
          intro h4
          have := hsecond.mpr h4
          rw [h2] at this
          exact absurd this (by simp)
        omega
      · intro _; exact h2
  · intro hone
    have hzero : (a ++ b).countP (fun e => e.Date.Equal d) = 0 := by omega
    have hn : ∀ x ∈ (c.put u (a ++ b)).get u, x.Date.Equal d = false := by
      rw [Manager.get_put_same]
      intro x hx
      have := List.countP_eq_zero.mp hzero x hx
      simpa using this
    rw [hfirst]
    simp only []
    rw [DeleteEvent_of_no_match _ u d hn]
  · intro htwo
    have hbpos : 0 < b.countP (fun e => e.Date.Equal d) := by omega
    have hbm : ∃ x ∈ b, x.Date.Equal d = true := List.countP_pos_iff.mp hbpos
    obtain ⟨m, e2, b2, hb, hmn, he2⟩ := exists_first_match (fun x => x.Date.Equal d) b hbm
    subst hb
    obtain ⟨h1, h2⟩ := DeleteEvent_twice_of_split c u d a e m e2 b2 hab ha he hmn he2
    refine ⟨a, e, m, e2, b2, hab, ha, he, hmn, he2, ?_, ?_⟩
    · rw [h1]; exact Manager.get_put_same c u _
    · rw [h2]; exact Manager.get_put_same c u _

theorem DeleteEvent_twice_not_found_iff_witness :
    ((DeleteEvent sampleStore 1 (day 10)).2 = none ∧
        2 ≤ (sampleStore.get 1).countP (fun e => e.Date.Equal (day 10)) ∧
        (DeleteEvent (DeleteEvent sampleStore 1 (day 10)).1 1 (day 10)).2 = none ∧
        ∃ a e1 m e2 b,
          sampleStore.get 1 = a ++ e1 :: (m ++ e2 :: b) ∧
          (∀ x ∈ a, x.Date.Equal (day 10) = false) ∧ e1.Date.Equal (day 10) = true ∧
          (∀ x ∈ m, x.Date.Equal (day 10) = false) ∧ e2.Date.Equal (day 10) = true ∧
          (DeleteEvent sampleStore 1 (day 10)).1.get 1 = a ++ (m ++ e2 :: b) ∧
          (DeleteEvent (DeleteEvent sampleStore 1 (day 10)).1 1 (day 10)).1.get 1 =
            a ++ (m ++ b)) ∧
      ((DeleteEvent exStore 1 jan11).2 = none ∧
        (exStore.get 1).countP (fun e => e.Date.Equal jan11) = 1 ∧
        (DeleteEvent (DeleteEvent exStore 1 jan11).1 1 jan11).2 = some "event not found" ∧
        (DeleteEvent (DeleteEvent exStore 1 jan11).1 1 jan11).1 =
          (DeleteEvent exStore 1 jan11).1) :=
  have h2 := DeleteEvent_twice_not_found_iff sampleStore 1 (day 10) (by decide)
  have h1 := DeleteEvent_twice_not_found_iff exStore 1 jan11 (by decide)
  ⟨⟨by decide, by decide, h2.2.1.mpr (by decide), h2.2.2.2 (by decide)⟩,
    ⟨by decide, by decide, h1.1.mpr (by decide), h1.2.2.1 (by decide)⟩⟩

/-- C12, as stated, fails: on the store of the end-to-end example
`UpdateEvent(1, 2024-01-10, "A2", "a2")` returns nil and the same call made
again returns nil too, not the not-found error. -/
theorem UpdateEvent_twice_counterexample :
    (UpdateEvent exStore 1 jan10 "A2" "a2").2 = none ∧
      (UpdateEvent (UpdateEvent exStore 1 jan10 "A2" "a2").1 1 jan10 "A2" "a2").2 = none ∧
      (UpdateEvent (UpdateEvent exStore 1 jan10 "A2" "a2").1 1 jan10 "A2" "a2").2 ≠
        some "event not found" := by
  decide

/-- C12, amended: when `UpdateEvent(u, d, T, X)` returns nil, an immediately
following `UpdateEvent(u, d, T, X)` returns nil again: the updated event keeps
its date and is found once more. -/
theorem UpdateEvent_twice_succeeds (c : Manager) (u : Int) (d : Time) (T X : String)
    (h : (UpdateEvent c u d T X).2 = none) :
    (UpdateEvent (UpdateEvent c u d T X).1 u d T X).2 = none := by
  rw [UpdateEvent_twice]; exact h

theorem UpdateEvent_twice_succeeds_witness :
    (UpdateEvent exStore 1 jan10 "A2" "a2").2 = none ∧
      (UpdateEvent (UpdateEvent exStore 1 jan10 "A2" "a2").1 1 jan10 "A2" "a2").2 = none :=
  ⟨by decide, UpdateEvent_twice_succeeds exStore 1 jan10 "A2" "a2" (by decide)⟩

/-- C19: `UpdateEvent(u, d, T, X)` returns nil exactly when `DeleteEvent(u, d)`
does, and that exactly when `GetEventsForRange(u, d, d)` is not empty; the
range test with both bounds `d` is the `Equal` test of update and delete. -/
theorem matching_consistent (c : Manager) (u : Int) (d : Time) (T X : String) :
    ((UpdateEvent c u d T X).2 = none ↔ (DeleteEvent c u d).2 = none) ∧
      ((DeleteEvent c u d).2 = none ↔ GetEventsForRange c u d d ≠ []) ∧
      ((UpdateEvent c u d T X).2 = none ↔ GetEventsForRange c u d d ≠ []) ∧
      ∀ t : Time, (!t.Before d && !t.After d) = t.Equal d := by
  have hq : GetEventsForRange c u d d ≠ [] ↔ ∃ e ∈ c.get u, e.Date.Equal d = true := by
    rw [GetEventsForRange_same_bounds, Ne, List.filter_eq_nil_iff]
    constructor
    · intro h
      by_contra hne
      exact h (fun x hx hxd => hne ⟨x, hx, hxd⟩)
    · rintro ⟨x, hx, hxd⟩ h
      exact h x hx hxd
  have hU := UpdateEvent_ok_iff c u d T X
  have hD := DeleteEvent_ok_iff c u d
  exact ⟨hU.trans hD.symm, hD.trans hq.symm, hU.trans hq.symm,
    fun t => Time.not_before_not_after t d⟩

theorem matching_consistent_witness :
    (UpdateEvent sampleStore 1 (day 11) "T" "X").2 = none ∧
      (DeleteEvent sampleStore 1 (day 11)).2 = none ∧
      GetEventsForRange sampleStore 1 (day 11) (day 11) ≠ [] :=
  have h := matching_consistent sampleStore 1 (day 11) "T" "X"
  have hd : (DeleteEvent sampleStore 1 (day 11)).2 = none := by decide
  ⟨h.1.mpr hd, hd, h.2.1.mp hd⟩

/-- C20: `UpdateEvent(u, d, T, X)` made twice in a row returns the second time
what it returned the first time, and the store after the second call is the
store after the first. -/
theorem UpdateEvent_idempotent (c : Manager) (u : Int) (d : Time) (T X : String) :
    (UpdateEvent (UpdateEvent c u d T X).1 u d T X).2 = (UpdateEvent c u d T X).2 ∧
      (UpdateEvent (UpdateEvent c u d T X).1 u d T X).1 = (UpdateEvent c u d T X).1 := by
  rw [UpdateEvent_twice]
  exact ⟨rfl, rfl⟩

/-! ## Sequences of calls from a new store -/

theorem Manager.get_put (c : Manager) (u k : Int) (xs : List Event) :
    (c.put u xs).get k = if k = u then xs else c.get k := by
  by_cases hk : k = u <;> simp [Manager.get, Manager.put, hk]

theorem run_cons (c : Manager) (x : Call) (rest : List Call) :
    run c (x :: rest) = ((run (call c x).1 rest).1, (call c x).2 :: (run (call c x).1 rest).2) :=
  rfl

/-- A range query leaves the store as it is. -/
theorem call_of_isQuery (c : Manager) (x : Call) (h : x.isQuery = true) :
    (call c x).1 = c ∧ ∃ xs, (call c x).2 = .events xs := by
  cases x <;> simp [Call.isQuery] at h
  exact ⟨rfl, _, rfl⟩

/-- Creates for one user, with range queries in between, append the created
events to that user's partition in call order. -/
theorem run_creates_get (u : Int) (calls : List Call)
    (h : ∀ x ∈ calls, x.isQuery = true ∨ ∃ e, x = .create e ∧ e.UserID = u) :
    ∀ c : Manager, (run c calls).1.get u = c.get u ++ calls.filterMap Call.created := by
  induction calls with
  | nil => intro c; simp [run]
  | cons x rest ih =>
    intro c
    have ih2 := ih (fun y hy => h y (List.mem_cons_of_mem _ hy))
    rw [run_cons]
    simp only []
    rw [ih2]
    rcases h x (List.mem_cons_self _ _) with hq | ⟨e, rfl, he⟩
    · have hc := (call_of_isQuery c x hq).1
      rw [hc]
      cases x <;> simp [Call.isQuery] at hq
      simp [Call.created]
    · subst he
      simp [call, CreateEvent, Manager.get_put_same, Call.created]

/-- One call keeps every stored event in the partition of its own user id. -/
theorem call_preserves_partition (c : Manager) (x : Call)
    (h : ∀ k e, e ∈ c.get k → e.UserID = k) :
    ∀ k e, e ∈ (call c x).1.get k → e.UserID = k := by
  intro k e hmem
  cases x with
  | create e0 =>
    simp only [call, CreateEvent, Manager.get_put] at hmem
    by_cases hk : k = e0.UserID
    · rw [if_pos hk] at hmem
      rcases List.mem_append.mp hmem with h1 | h1
      · exact hk ▸ h _ e h1
      · rw [List.mem_singleton.mp h1]; exact hk.symm
    · rw [if_neg hk] at hmem; exact h k e hmem
  | update u d T X =>
    simp only [call] at hmem
    rcases match_or_no_match d (c.get u) with hm | hn
    · obtain ⟨a, e1, b, hab, ha, he⟩ :=
        exists_first_match (fun x => x.Date.Equal d) (c.get u) hm
      rw [UpdateEvent_of_split c u d T X a e1 b hab ha he] at hmem
      simp only [Manager.get_put] at hmem
      by_cases hk : k = u
      · rw [if_pos hk] at hmem
        have hold : ∀ y ∈ a ++ e1 :: b, y.UserID = u := fun y hy => h u y (hab ▸ hy)
        rcases List.mem_append.mp hmem with h1 | h1
        · exact hk ▸ hold e (List.mem_append_left _ h1)
        · rcases List.mem_cons.mp h1 with h2 | h2
          · rw [h2]
            exact hk ▸ hold e1 (List.mem_append_right _ (List.mem_cons_self _ _))
          · exact hk ▸ hold e (List.mem_append_right _ (List.mem_cons_of_mem _ h2))
      · rw [if_neg hk] at hmem; exact h k e hmem
    · rw [UpdateEvent_of_no_match c u d T X hn] at hmem
      exact h k e hmem
  | delete u d =>
    simp only [call] at hmem
    rcases match_or_no_match d (c.get u) with hm | hn
    · obtain ⟨a, e1, b, hab, ha, he⟩ :=
        exists_first_match (fun x => x.Date.Equal d) (c.get u) hm
      rw [DeleteEvent_of_split c u d a e1 b hab ha he] at hmem
      simp only [Manager.get_put] at hmem
      by_cases hk : k = u
      · rw [if_pos hk] at hmem
        have hold : ∀ y ∈ a ++ e1 :: b, y.UserID = u := fun y hy => h u y (hab ▸ hy)
        rcases List.mem_append.mp hmem with h1 | h1
        · exact hk ▸ hold e (List.mem_append_left _ h1)
        · exact hk ▸ hold e (List.mem_append_right _ (List.mem_cons_of_mem _ h1))
      · rw [if_neg hk] at hmem; exact h k e hmem
    · rw [DeleteEvent_of_no_match c u d hn] at hmem
      exact h k e hmem
  | query u start stop => exact h k e hmem

theorem run_preserves_partition (calls : List Call) :
    ∀ c : Manager, (∀ k e, e ∈ c.get k → e.UserID = k) →
      ∀ k e, e ∈ (run c calls).1.get k → e.UserID = k := by
  induction calls with
  | nil => intro c h; exact h
  | cons x rest ih =>
    intro c h
    rw [run_cons]
    exact ih (call c x).1 (call_preserves_partition c x h)

/-- Deletes of `(u, d)`, with range queries in between, on a partition whose
events all match `d`: each delete removes one event while there is one, and
returns the not-found error afterwards. -/
theorem run_deletes (u : Int) (d : Time) (calls : List Call)
    (h : ∀ x ∈ calls, x.isQuery = true ∨ x = .delete u d) :
    ∀ c : Manager, (∀ e ∈ c.get u, e.Date.Equal d = true) →
      (run c calls).2.countP (fun r => decide (r = .err none)) =
          min (calls.countP (fun x => decide (x = .delete u d))) (c.get u).length ∧
        (run c calls).2.countP (fun r => decide (r = .err (some "event not found"))) =
          calls.countP (fun x => decide (x = .delete u d)) -
            min (calls.countP (fun x => decide (x = .delete u d))) (c.get u).length ∧
        ((run c calls).1.get u).length =
          (c.get u).length -
            min (calls.countP (fun x => decide (x = .delete u d))) (c.get u).length := by
  induction calls with
  | nil => intro c _; simp [run]
  | cons x rest ih =>
    intro c hall
    have ih2 := ih (fun y hy => h y (List.mem_cons_of_mem _ hy))
    rw [run_cons]
    simp only [List.countP_cons]
    rcases h x (List.mem_cons_self _ _) with hq | rfl
    · obtain ⟨hc, xs, hr⟩ := call_of_isQuery c x hq
      have hx : decide (x = Call.delete u d) = false := by
        cases x <;> simp [Call.isQuery] at hq
        simp
      rw [hc, hr, hx]
      simpa using ih2 c hall
    · simp only [call, decide_True, if_true]
      rcases hxs : c.get u with _ | ⟨e, tl⟩
      · have hn : ∀ y ∈ c.get u, y.Date.Equal d = false := by
          rw [hxs]; intro y hy; simp at hy
        have hdel := DeleteEvent_of_no_match c u d hn
        obtain ⟨h1, h2, h3⟩ := ih2 c hall
        rw [hxs] at h1 h2 h3
        simp only [hdel, errNotFound, h1, h2, h3]
        simp
      · have he : e.Date.Equal d = true := hall e (by rw [hxs]; exact List.mem_cons_self _ _)
        have hsplit := DeleteEvent_of_split c u d [] e tl (by simpa using hxs) (by simp) he
        have hall2 : ∀ y ∈ (c.put u ([] ++ tl)).get u, y.Date.Equal d = true := by
          rw [Manager.get_put_same]
          intro y hy
          exact hall y (by rw [hxs]; exact List.mem_cons_of_mem _ (by simpa using hy))
        obtain ⟨h1, h2, h3⟩ := ih2 (c.put u ([] ++ tl)) hall2
        rw [Manager.get_put_same] at h1 h2 h3
        simp only [List.nil_append] at h1 h2 h3
        simp only [hsplit, List.nil_append, h1, h2, h3]
        simp
        omega

/-- C13: from a new store, after any sequence of calls made of `CreateEvent`s
of events of user `u` and of range queries, `u`'s partition lists the created
events in call order, so its length is the number `N` of creates. -/
theorem create_accumulates (u : Int) (calls : List Call) (N : Nat)
    (h : ∀ x ∈ calls, x.isQuery = true ∨ ∃ e, x = .create e ∧ e.UserID = u)
    (hN : calls.countP (fun x => x.created.isSome) = N) :
    (run NewManager calls).1.get u = calls.filterMap Call.created ∧
      ((run NewManager calls).1.get u).length = N := by
  have hget := run_creates_get u calls h NewManager
  have hnew : NewManager.get u = [] := rfl
  rw [hnew, List.nil_append] at hget
  refine ⟨hget, ?_⟩
  rw [hget, ← hN]
  clear h hget hN
  induction calls with
  | nil => rfl
  | cons x rest ih =>
    cases x <;> simp [Call.created, List.filterMap_cons, List.countP_cons, ih]

theorem create_accumulates_witness :
    (∀ x ∈ sampleCalls, x.isQuery = true ∨ ∃ e, x = .create e ∧ e.UserID = 1) ∧
      sampleCalls.countP (fun x => x.created.isSome) = 3 ∧
      (run NewManager sampleCalls).1.get 1 = sampleCalls.filterMap Call.created ∧
      ((run NewManager sampleCalls).1.get 1).length = 3 :=
  have h : ∀ x ∈ sampleCalls, x.isQuery = true ∨ ∃ e, x = .create e ∧ e.UserID = 1 := by
    intro x hx
    simp only [sampleCalls, List.mem_cons, List.mem_singleton, List.not_mem_nil, or_false] at hx
    rcases hx with rfl | rfl | rfl | rfl | rfl
    · exact Or.inr ⟨evB, rfl, rfl⟩
    · exact Or.inl rfl
    · exact Or.inr ⟨evA, rfl, rfl⟩
    · exact Or.inl rfl
    · exact Or.inr ⟨evC, rfl, rfl⟩
  ⟨h, by decide, create_accumulates 1 sampleCalls 3 h (by decide)⟩

/-- C14: in every store reached from a new store by a sequence of calls, an
event stored in the partition of user id `k` has `UserID = k`. -/
theorem partition_invariant (calls : List Call) (k : Int) (e : Event)
    (h : e ∈ (run NewManager calls).1.get k) : e.UserID = k := by
  refine run_preserves_partition calls NewManager ?_ k e h
  intro k2 e2 h2
  simp [NewManager, Manager.get] at h2

theorem partition_invariant_witness :
    ({ UserID := 1, Date := day 10, Title := "T", Text := "X" } : Event) ∈
        (run NewManager mixedCalls).1.get 1 ∧
      ({ UserID := 1, Date := day 10, Title := "T", Text := "X" } : Event).UserID = 1 :=
  ⟨by decide, partition_invariant mixedCalls 1 _ (by decide)⟩

/-- The week handler returns the events dated from the start date to the start
date plus seven days, both ends included. -/
theorem handleGetWeekEvents_eq_filter (c : Manager) (u : Int) (t : Time) :
    handleGetWeekEvents c u t =
      (c.get u).filter (fun e => Time.le t e.Date && Time.le e.Date (t.AddDate 7)) := by
  unfold handleGetWeekEvents handleGetEvents GetEventsForRange
  simp only [show (7 : Int) > 0 by decide, if_true]
  rw [GetEventsForRange_loop_eq, List.nil_append]
  congr 1
  funext e
  rw [Time.le_eq_not_before, Time.le_eq_not_after]

/-- C15, on the code: with events of user 1 dated day 10, day 17 and day 18,
the week handler called with start date day 10 returns the events of day 10
and of day 17, which is the start date plus seven days, the eighth day of the
period. -/
theorem handleGetWeekEvents_returns_eighth_day :
    handleGetWeekEvents weekStore 1 (day 10) = [evA, evDay17] ∧
      evDay17.Date = (day 10).AddDate 7 ∧
      evDay17 ∈ handleGetWeekEvents weekStore 1 (day 10) := by
  decide

/-- C16: the end-to-end example. On a new store the two creates return nil;
the query of 2024-01-10 alone returns the "A" event, the query from 2024-01-10
to 2024-01-11 both events in creation order; the update returns nil and the
query then shows title "A2" and text "a2"; the delete of 2024-01-11 returns
nil and the same delete made again returns the not-found error. -/
theorem end_to_end_example :
    (CreateEvent NewManager exA).2 = none ∧
      (CreateEvent (CreateEvent NewManager exA).1 exB).2 = none ∧
      GetEventsForRange exStore 1 jan10 jan10 = [exA] ∧
      GetEventsForRange exStore 1 jan10 jan11 = [exA, exB] ∧
      (UpdateEvent exStore 1 jan10 "A2" "a2").2 = none ∧
      GetEventsForRange (UpdateEvent exStore 1 jan10 "A2" "a2").1 1 jan10 jan10 =
        [{ UserID := 1, Date := jan10, Title := "A2", Text := "a2" }] ∧
      (DeleteEvent (UpdateEvent exStore 1 jan10 "A2" "a2").1 1 jan11).2 = none ∧
      (DeleteEvent (DeleteEvent (UpdateEvent exStore 1 jan10 "A2" "a2").1 1 jan11).1 1 jan11).2 =
        some "event not found" := by
  decide

/-- C18: from a new store, after calls made of `n` creates of events of user
`u` dated `d` (and range queries), then calls made of `k` deletes of `(u, d)`
(and range queries): `min k n` of the deletes return nil, the other
`k - min k n` return the not-found error, and `u`'s partition has length
`n - min k n`. -/
theorem creates_then_deletes (u : Int) (d : Time) (creates deletes : List Call) (n k : Nat)
    (h1 : ∀ x ∈ creates, x.isQuery = true ∨ ∃ e, x = .create e ∧ e.UserID = u ∧ e.Date = d)
    (h2 : ∀ x ∈ deletes, x.isQuery = true ∨ x = .delete u d)
    (hn : creates.countP (fun x => x.created.isSome) = n)
    (hk : deletes.countP (fun x => decide (x = .delete u d)) = k) :
    ((run NewManager creates).1.get u).length = n ∧
      (run (run NewManager creates).1 deletes).2.countP (fun r => decide (r = .err none)) =
        min k n ∧
      (run (run NewManager creates).1 deletes).2.countP
          (fun r => decide (r = .err (some "event not found"))) = k - min k n ∧
      ((run (run NewManager creates).1 deletes).1.get u).length = n - min k n := by
  have h1b : ∀ x ∈ creates, x.isQuery = true ∨ ∃ e, x = .create e ∧ e.UserID = u := by
    intro x hx
    rcases h1 x hx with hq | ⟨e, he, hu, _⟩
    · exact Or.inl hq
    · exact Or.inr ⟨e, he, hu⟩
  have hget := run_creates_get u creates h1b NewManager
  have hnew : NewManager.get u = [] := rfl
  rw [hnew, List.nil_append] at hget
  have hlen : ((run NewManager creates).1.get u).length = n := by
    rw [hget, ← hn]
    clear h1 h1b hget hn
    induction creates with
    | nil => rfl
    | cons x rest ih =>
      cases x <;> simp [Call.created, List.filterMap_cons, List.countP_cons, ih]
  have hall : ∀ e ∈ (run NewManager creates).1.get u, e.Date.Equal d = true := by
    intro e he
    rw [hget, List.mem_filterMap] at he
    obtain ⟨x, hx, hxe⟩ := he
    rcases h1 x hx with hq | ⟨e2, rfl, _, hd⟩
    · cases x <;> simp [Call.isQuery] at hq
      simp [Call.created] at hxe
    · simp only [Call.created, Option.some.injEq] at hxe
      rw [← hxe, hd]
      exact Time.Equal_refl d
  have hdel := run_deletes u d deletes h2 (run NewManager creates).1 hall
  rw [hk, hlen] at hdel
  exact ⟨hlen, hdel⟩

theorem creates_then_deletes_witness :
    (∀ x ∈ hundredCreates,
        x.isQuery = true ∨ ∃ e, x = .create e ∧ e.UserID = 1 ∧ e.Date = day 10) ∧
      (∀ x ∈ fiftyDeletes, x.isQuery = true ∨ x = .delete 1 (day 10)) ∧
      ((run NewManager hundredCreates).1.get 1).length = 100 ∧
      (run (run NewManager hundredCreates).1 fiftyDeletes).2.countP
          (fun r => decide (r = .err none)) = 50 ∧
      (run (run NewManager hundredCreates).1 fiftyDeletes).2.countP
          (fun r => decide (r = .err (some "event not found"))) = 0 ∧
      ((run (run NewManager hundredCreates).1 fiftyDeletes).1.get 1).length = 50 :=
  have h1 : ∀ x ∈ hundredCreates,
      x.isQuery = true ∨ ∃ e, x = .create e ∧ e.UserID = 1 ∧ e.Date = day 10 := by
    intro x hx
    rw [List.eq_of_mem_replicate hx]
    exact Or.inr ⟨evA, rfl, rfl, rfl⟩
  have h2 : ∀ x ∈ fiftyDeletes, x.isQuery = true ∨ x = .delete 1 (day 10) := by
    intro x hx
    exact Or.inr (List.eq_of_mem_replicate hx)
  ⟨h1, h2, creates_then_deletes 1 (day 10) hundredCreates fiftyDeletes 100 50 h1 h2
    (by simp [hundredCreates, Call.created]) (by simp [fiftyDeletes])⟩

end Storage
